import Mathlib

/-!
Verification development for the subprocess-to-pull-iterator bridge of the
generaltranslation/codex repository.

The development shallowly embeds three parts of the source:

* the `AsyncQueue` class of `codex-sdk/src/sdk.ts` (lines 11-74) together
  with its single consumer (the `for await` loop of `run`), as a state
  machine over atomic event-loop steps;
* the newline framer attached to the child process stdout
  (`codex-sdk/src/sdk.ts` lines 134-151) and the trailing-buffer `cleanup`
  (lines 194-205), over `List Char` text with an abstract line parser;
* the termination classifiers: the `close` and `error` handlers of
  `codex-sdk/src/sdk.ts` (lines 153-191) building the errors of
  `codex-sdk/src/errors.ts`, and the corresponding handlers of the
  `query` bridge variant shipped in `codex-cli/src/README.md`
  (lines 459-493), together with that variant's duplicated `AsyncQueue`
  (lines 279-342).

JavaScript specifics captured by the model: the event loop is single
threaded, so each queue method call and each resumption of the consumer
generator is one atomic step; `pending` holds at most one stored resolver
because it is a single field; the slot array `q` holds the untagged union
`T | Error | symbol`, modelled as a tagged sum because the stream events
fed to the queue are plain parsed records and never `Error` instances, so
the `instanceof Error` test of the iterator distinguishes the summands
exactly; `error(err)` called while a consumer is blocked resolves the wait
with `done: true` and re-throws `err` on a later tick via `setImmediate`,
which the model records in the `uncaught` side channel because that throw
escapes the iteration instead of being delivered by it.
-/

/-- How the consumer side of one invocation terminated: the iteration
completed normally, or the pull operation threw `e`. -/
inductive TermKind (E : Type) : Type where
  | normal : TermKind E
  | threw (e : E) : TermKind E
deriving DecidableEq

/-- One atomic event-loop step driving the queue: a producer call
(`push`, `error`, `end` — spelled `stop` because `end` is reserved in
Lean), or one pull step of the consumer generator. -/
inductive Step (T E : Type) : Type where
  | push (v : T) : Step T E
  | error (e : E) : Step T E
  | stop : Step T E
  | pull : Step T E
deriving DecidableEq

namespace AsyncQueue

/-- One slot of the internal array `q : Array<T | Error | symbol>`
(`codex-sdk/src/sdk.ts` line 12): a pushed value, a buffered error, or
the `DONE` sentinel symbol. -/
inductive Slot (T E : Type) : Type where
  | item (v : T) : Slot T E
  | err (e : E) : Slot T E
  | done : Slot T E
deriving DecidableEq

/-- State of one `AsyncQueue` instance plus its single consumer.
`q` and `pending` are the two fields of the class (`pending` abstracted to
a presence flag for the stored resolver). `consumerDone` records that the
consumer generator has returned or thrown; `out` is the list of values the
iteration has yielded, in order; `term` is how the iteration ended;
`uncaught` collects errors re-thrown on a later tick by the `setImmediate`
branch of `error`, which escape the iteration. -/
structure State (T E : Type) : Type where
  q : List (Slot T E)
  pending : Bool
  consumerDone : Bool
  out : List T
  term : Option (TermKind E)
  uncaught : List E
deriving DecidableEq

/-- A freshly constructed queue with its consumer about to iterate. -/
def initState (T E : Type) : State T E :=
  { q := [], pending := false, consumerDone := false, out := [], term := none, uncaught := [] }

/-- `push(value)`, `codex-sdk/src/sdk.ts` lines 16-24: resolve a stored
pending resolver with `{ done: false, value }` (the consumer yields the
value), otherwise append the value to `q`. -/
def push (v : T) (st : State T E) : State T E :=
  if st.pending then
    { st with pending := false, out := st.out ++ [v] }
  else
    { st with q := st.q ++ [Slot.item v] }

/-- `error(err)`, `codex-sdk/src/sdk.ts` lines 25-38: with a stored
pending resolver, schedule `throw err` on a later tick via `setImmediate`
(recorded in `uncaught`) and resolve the wait with `{ done: true }`, so
the consumer generator returns and the iteration completes normally;
otherwise append the error to `q`. -/
def error (e : E) (st : State T E) : State T E :=
  if st.pending then
    { st with pending := false, uncaught := st.uncaught ++ [e],
              consumerDone := true, term := some TermKind.normal }
  else
    { st with q := st.q ++ [Slot.err e] }

/-- `end()`, `codex-sdk/src/sdk.ts` lines 39-47: resolve a stored pending
resolver with `{ done: true }`, otherwise append the `DONE` sentinel. -/
def stop (st : State T E) : State T E :=
  if st.pending then
    { st with pending := false, consumerDone := true, term := some TermKind.normal }
  else
    { st with q := st.q ++ [Slot.done] }

/-- One pull step of the consumer generator, `codex-sdk/src/sdk.ts` lines
51-73: nothing once the generator has returned or thrown, and nothing
while it is already blocked awaiting; on an empty `q` store the resolver
and block; otherwise shift the first slot and return (on `DONE`), throw
(on an `Error` slot), or yield the value. -/
def pull (st : State T E) : State T E :=
  if st.consumerDone then st
  else if st.pending then st
  else
    match st.q with
    | [] => { st with pending := true }
    | Slot.item v :: rest => { st with q := rest, out := st.out ++ [v] }
    | Slot.err e :: rest =>
        { st with q := rest, consumerDone := true, term := some (TermKind.threw e) }
    | Slot.done :: rest =>
        { st with q := rest, consumerDone := true, term := some TermKind.normal }

/-- Dispatch one atomic step. -/
def applyStep (st : State T E) : Step T E → State T E
  | Step.push v => push v st
  | Step.error e => error e st
  | Step.stop => stop st
  | Step.pull => pull st

/-- Run a sequence of atomic steps from a state. -/
def runSteps (st : State T E) : List (Step T E) → State T E
  | [] => st
  | a :: s => runSteps (applyStep st a) s

/-- The producer calls of a step sequence, in order (pulls dropped). -/
def isProducer : Step T E → Bool
  | Step.pull => false
  | _ => true

/-- The producer sub-sequence of a step sequence. -/
def producers (s : List (Step T E)) : List (Step T E) :=
  s.filter isProducer

/-- The slot a producer call appends to `q` when no consumer is waiting
(`pull` appends nothing). -/
def toSlot : Step T E → Option (Slot T E)
  | Step.push v => some (Slot.item v)
  | Step.error e => some (Slot.err e)
  | Step.stop => some Slot.done
  | Step.pull => none

/-- Buffered form of a producer call sequence. -/
def slotsOf (ops : List (Step T E)) : List (Slot T E) :=
  ops.filterMap toSlot

/-- First terminal producer call of an invocation: `end()` (`fin`) or
`error e`. -/
inductive Sig (E : Type) : Type where
  | fin : Sig E
  | err (e : E) : Sig E
deriving DecidableEq

/-- Ghost update: the first terminal signal after one more step. -/
def tkStep (tk : Option (Sig E)) : Step T E → Option (Sig E)
  | a =>
    match tk, a with
    | some sg, _ => some sg
    | none, Step.error e => some (Sig.err e)
    | none, Step.stop => some Sig.fin
    | none, _ => none

/-- Ghost update: values pushed strictly before the first terminal call,
after one more step. -/
def preStep (pre : List T) (tk : Option (Sig E)) : Step T E → List T
  | Step.push v => match tk with | none => pre ++ [v] | some _ => pre
  | _ => pre

/-- First terminal call over a whole step sequence, from an accumulator. -/
def tkOfAux (tk : Option (Sig E)) : List (Step T E) → Option (Sig E)
  | [] => tk
  | a :: s => tkOfAux (tkStep tk a) s

/-- Pushes before the first terminal call, from accumulators. -/
def preOfAux (pre : List T) (tk : Option (Sig E)) : List (Step T E) → List T
  | [] => pre
  | a :: s => preOfAux (preStep pre tk a) (tkStep tk a) s

/-- First terminal producer call (`end` or `error`) of a step sequence. -/
def tkOf (s : List (Step T E)) : Option (Sig E) :=
  tkOfAux none s

/-- The values pushed strictly before the first terminal call of a step
sequence, in push order. -/
def preOf (s : List (Step T E)) : List T :=
  preOfAux [] none s

/-- The queue slot a terminal producer call buffers when no consumer is
waiting. -/
def sentinel : Sig E → Slot T E
  | Sig.fin => Slot.done
  | Sig.err e => Slot.err e

/-- How the iteration ends when the consumer dequeues the buffered slot of
a terminal call: `DONE` returns, an `Error` slot is thrown. -/
def sigTerm : Sig E → TermKind E
  | Sig.fin => TermKind.normal
  | Sig.err e => TermKind.threw e

/-- Fuel-bounded repetition of consumer pull steps. -/
def drainFuel : Nat → State T E → State T E
  | 0, st => st
  | Nat.succ n, st =>
    if st.consumerDone then st
    else
      match st.q with
      | [] => st
      | _ :: _ => drainFuel n (pull st)

/-- A consumer that keeps pulling until its iteration ends or the queue
has no buffered slot left (at which point it would block). One pull per
buffered slot is enough fuel. -/
def drain (st : State T E) : State T E :=
  drainFuel st.q.length st

/-- Invariant of a live invocation (no terminal call yet): the buffer
holds only pushed values, in order after the delivered ones, the resolver
is stored only on an empty buffer, and the iteration is still running. -/
def runningInv (pre : List T) (st : State T E) : Prop :=
  ∃ l, st.q = l.map Slot.item ∧ st.out ++ l = pre ∧
    (st.pending = true → l = []) ∧
    st.consumerDone = false ∧ st.term = none ∧ st.uncaught = []

/-- The two ways the first terminal call can surface: dequeued by the
consumer (`DONE` returns normally, an error slot is thrown), or resolved
against a blocked consumer (normal return; an error escapes to the
`setImmediate` side channel). -/
def sigOutcome (sig : Sig E) (st : State T E) : Prop :=
  match sig with
  | Sig.fin => st.term = some TermKind.normal ∧ st.uncaught = []
  | Sig.err e =>
      (st.term = some (TermKind.threw e) ∧ st.uncaught = []) ∨
      (st.term = some TermKind.normal ∧ st.uncaught = [e])

/-- Invariant after the first terminal call: either the iteration has
ended with all pre-terminal values delivered and one of the legal
outcomes, or its sentinel slot is still buffered behind the not yet
consumed pre-terminal values. -/
def stoppedInv (pre : List T) (sig : Sig E) (st : State T E) : Prop :=
  (st.consumerDone = true ∧ st.out = pre ∧ st.pending = false ∧ sigOutcome sig st)
  ∨
  (st.consumerDone = false ∧ st.pending = false ∧ st.term = none ∧ st.uncaught = [] ∧
    ∃ l rest, st.q = l.map Slot.item ++ sentinel sig :: rest ∧ st.out ++ l = pre)

/-- Global invariant of the queue-plus-consumer system, indexed by the
ghost data (pushes before the first terminal call, first terminal call). -/
def Inv (pre : List T) (tk : Option (Sig E)) (st : State T E) : Prop :=
  match tk with
  | none => runningInv pre st
  | some sig => stoppedInv pre sig st

end AsyncQueue

/-! ## The line framer (`codex-sdk/src/sdk.ts` lines 134-151) -/

/-- The whitespace characters removed by JavaScript `String.prototype.trim`
that can occur here (ASCII whitespace, no-break space, BOM). -/
def isJsWs (c : Char) : Bool :=
  (c = ' ') || (c = '\t') || (c = '\n') || (c = '\x0d') ||
  (c = '\x0b') || (c = '\x0c') || (c = '\u00A0') || (c = '\uFEFF')

/-- `line.trim()` is falsy exactly when every character is whitespace. -/
def isBlank (l : List Char) : Bool :=
  l.all isJsWs

/-- `text.split("\n")` of JavaScript over `List Char`: the list of
segments between newline characters; always non-empty, the last segment
being the unterminated trailing fragment. -/
def jsSplit : List Char → List (List Char)
  | [] => [[]]
  | c :: cs =>
    if c = '\n' then [] :: jsSplit cs
    else
      match jsSplit cs with
      | [] => [[c]]
      | s :: rest => (c :: s) :: rest

/-- Prepend a fragment to the first segment of a split (used to describe
how retained buffer text recombines with the next chunk). -/
def prependHead (p : List Char) : List (List Char) → List (List Char)
  | [] => [p]
  | s :: rest => (p ++ s) :: rest

/-- `jsSplit` presented as the pair the handler actually uses: the
complete lines, and the unterminated trailing fragment that `pop`
removes. -/
def splitNl : List Char → List (List Char) × List Char
  | [] => ([], [])
  | c :: cs =>
    let p := splitNl cs
    if c = '\n' then ([] :: p.1, p.2)
    else
      match p.1 with
      | [] => ([], c :: p.2)
      | s :: rest => ((c :: s) :: rest, p.2)

/-- How a retained fragment `f` recombines with the split of later text:
`f` extends the first complete line, or the fragment when there is no
complete line. -/
def glue (f : List Char) (p : List (List Char) × List Char) :
    List (List Char) × List Char :=
  match p.1 with
  | [] => ([], f ++ p.2)
  | s :: rest => ((f ++ s) :: rest, p.2)

/-- One complete line of the stdout handler loop (`codex-sdk/src/sdk.ts`
lines 139-150): a whitespace-only line is skipped, otherwise the line is
parsed and a parse failure is dropped. `parse` abstracts `JSON.parse`
returning `none` where it would throw. -/
def parseLine (parse : List Char → Option T) (line : List Char) : Option T :=
  if isBlank line then none else parse line

/-- The stdout `data` handler (`codex-sdk/src/sdk.ts` lines 135-151) on
one chunk: append the chunk to the retained buffer, split on newline, pop
the trailing fragment as the new buffer, and emit one parse attempt per
complete line. Returns the pushed events in order and the new buffer. -/
def feed (parse : List Char → Option T) (buffer chunk : List Char) :
    List T × List Char :=
  let segs := jsSplit (buffer ++ chunk)
  (segs.dropLast.filterMap (parseLine parse), segs.getLastD [])

/-- The stdout handler over a whole sequence of chunks, accumulating the
pushed events. -/
def feedAll (parse : List Char → Option T) (buffer : List Char) :
    List (List Char) → List T × List Char
  | [] => ([], buffer)
  | chunk :: rest =>
    let fed := feed parse buffer chunk
    let tail := feedAll parse fed.2 rest
    (fed.1 ++ tail.1, tail.2)

/-- The `cleanup` flush (`codex-sdk/src/sdk.ts` lines 194-205): if the
retained trailing buffer is non-blank, attempt one final parse and push
the result when it succeeds; a failure is ignored. Returns the pushed
events (zero or one). -/
def cleanupEvents (parse : List Char → Option T) (buffer : List Char) : List T :=
  if isBlank buffer then []
  else
    match parse buffer with
    | some v => [v]
    | none => []

/-- A concrete line parser used to evaluate the framer on closed inputs:
accepts exactly the line `a` (blank lines rejected like `JSON.parse`). -/
def w7parse (l : List Char) : Option Nat :=
  if isBlank l then none
  else if l = ['a'] then some 1
  else none

/-! ## Termination classification -/

/-- The error classes of `codex-sdk/src/errors.ts` reachable from the
bridge handlers, with their carried data: `UserAbortError(message)`,
`AgentProcessError(message, code?)`, `AgentSpawnError(message, cause)`
(the opaque platform cause object is not modelled). -/
inductive SdkErr : Type where
  | userAbort (msg : String) : SdkErr
  | agentProcess (msg : String) (code : Option Int) : SdkErr
  | agentSpawn (msg : String) : SdkErr
deriving DecidableEq

/-- JavaScript template interpolation of a `number | null` exit code. -/
def optCodeStr : Option Int → String
  | none => "null"
  | some n => toString n

/-- JavaScript template interpolation of a `Signals | null` signal. -/
def optSigStr : Option String → String
  | none => "null"
  | some s => s

/-- The `close` handler classification of `codex-sdk/src/sdk.ts` lines
154-175, with `aborted` the value of `abortController.signal.aborted`
read at classification time: SIGTERM or SIGKILL is a user abort when
cancellation was requested and otherwise an `AgentProcessError` carrying
the signal name in its message; else exit code 0 resolves with no error
and any other code is an `AgentProcessError` carrying the code. `none`
means the lifecycle wait resolves cleanly. -/
def sdkCloseOutcome (code : Option Int) (signal : Option String)
    (aborted : Bool) : Option SdkErr :=
  if signal = some "SIGTERM" ∨ signal = some "SIGKILL" then
    if aborted then some (SdkErr.userAbort "Codex was aborted by user")
    else some (SdkErr.agentProcess
      ("Codex was terminated with signal " ++ optSigStr signal) code)
  else if code = some 0 then none
  else some (SdkErr.agentProcess
    ("Codex exited with code " ++ optCodeStr code) code)

/-- The `error` (spawn failure) handler classification of
`codex-sdk/src/sdk.ts` lines 177-191, from the name and message of the
platform error and the abort flag. -/
def sdkErrorOutcome (name msg : String) (aborted : Bool) : SdkErr :=
  if name = "AbortError" then
    if aborted then SdkErr.userAbort "Codex was aborted by user"
    else SdkErr.userAbort "Codex was aborted"
  else SdkErr.agentSpawn ("failed to run Codex: " ++ msg)

/-- `pat` is a leading segment of `s` (decidable, over characters). -/
def hasPrefixL : List Char → List Char → Bool
  | [], _ => true
  | _ :: _, [] => false
  | a :: as, b :: bs => a = b && hasPrefixL as bs

/-- `pat` occurs contiguously somewhere in `s` (decidable): used to state
whether an error message carries a signal name. -/
def hasSegment (pat : List Char) : List Char → Bool
  | [] => hasPrefixL pat []
  | c :: rest => hasPrefixL pat (c :: rest) || hasSegment pat rest

/-- The errors thrown by the `query` bridge variant of
`codex-cli/src/README.md`: its local `AbortError` class (line 277) and
plain `Error` objects. -/
inductive CliErr : Type where
  | abortError (msg : String) : CliErr
  | genericError (msg : String) : CliErr
deriving DecidableEq

/-- The `close` handler of the `query` variant, `codex-cli/src/README.md`
lines 460-470. The callback binds only the exit code (the signal argument
Node passes is not declared), so the outcome cannot depend on the signal.
A promise settles once, so the abort rejection wins when both branches
fire. -/
def cliCloseOutcome (code : Option Int) (aborted : Bool) : Option CliErr :=
  if aborted then some (CliErr.abortError "Codex process aborted by user")
  else if code ≠ some 0 then
    some (CliErr.genericError ("Codex process exited with code " ++ optCodeStr code))
  else none

/-- The `error` handler of the `query` variant, `codex-cli/src/README.md`
lines 472-479. -/
def cliErrorOutcome (msg : String) (aborted : Bool) : CliErr :=
  if aborted then CliErr.abortError "Codex process aborted by user"
  else CliErr.genericError ("Codex process exited with error: " ++ msg)

/-- The queue calls the `forward` task performs once the lifecycle wait
settles (`codex-sdk/src/sdk.ts` lines 210-217): `queue.end()` on a clean
resolution, `queue.error(err); queue.end()` on a rejection. -/
def termOps : Option E → List (Step T E)
  | none => [Step.stop]
  | some e => [Step.error e, Step.stop]

/-- All queue calls of the `close` path (`codex-sdk/src/sdk.ts` lines
154-175 with lines 194-205 and 210-217): `cleanup()` flushes the trailing
buffer first, then the classified outcome reaches the queue. -/
def sdkClosePathOps (parse : List Char → Option T) (buffer : List Char)
    (code : Option Int) (signal : Option String) (aborted : Bool) :
    List (Step T SdkErr) :=
  (cleanupEvents parse buffer).map Step.push ++
    termOps (sdkCloseOutcome code signal aborted)

/-- All queue calls of the spawn `error` path (`codex-sdk/src/sdk.ts`
lines 177-191 with lines 194-205 and 210-217): `cleanup()` first, then
the rejection reaches the queue. -/
def sdkSpawnPathOps (parse : List Char → Option T) (buffer : List Char)
    (name msg : String) (aborted : Bool) : List (Step T SdkErr) :=
  (cleanupEvents parse buffer).map Step.push ++
    termOps (some (sdkErrorOutcome name msg aborted))

/-! ## The duplicated `AsyncQueue` of the `query` bridge variant
(`codex-cli/src/README.md` lines 279-342) -/

namespace CliAsyncQueue

/-- One slot of `q : Array<T | Error | symbol>`, `codex-cli/src/README.md`
line 280. -/
inductive Slot (T E : Type) : Type where
  | item (v : T) : Slot T E
  | err (e : E) : Slot T E
  | done : Slot T E
deriving DecidableEq

/-- State of the `query` variant's `AsyncQueue` plus its single consumer,
with the same observables as `AsyncQueue.State`. -/
structure State (T E : Type) : Type where
  q : List (Slot T E)
  pending : Bool
  consumerDone : Bool
  out : List T
  term : Option (TermKind E)
  uncaught : List E
deriving DecidableEq

/-- A freshly constructed queue with its consumer about to iterate. -/
def initState (T E : Type) : State T E :=
  { q := [], pending := false, consumerDone := false, out := [], term := none, uncaught := [] }

/-- `push(value)`, `codex-cli/src/README.md` lines 284-292. -/
def push (v : T) (st : State T E) : State T E :=
  if st.pending then
    { st with pending := false, out := st.out ++ [v] }
  else
    { st with q := st.q ++ [Slot.item v] }

/-- `error(err)`, `codex-cli/src/README.md` lines 293-306: identical to
the `codex-sdk` version, including the `setImmediate` re-throw for a
blocked consumer. -/
def error (e : E) (st : State T E) : State T E :=
  if st.pending then
    { st with pending := false, uncaught := st.uncaught ++ [e],
              consumerDone := true, term := some TermKind.normal }
  else
    { st with q := st.q ++ [Slot.err e] }

/-- `end()`, `codex-cli/src/README.md` lines 307-315. -/
def stop (st : State T E) : State T E :=
  if st.pending then
    { st with pending := false, consumerDone := true, term := some TermKind.normal }
  else
    { st with q := st.q ++ [Slot.done] }

/-- One pull step of the consumer generator, `codex-cli/src/README.md`
lines 319-341. -/
def pull (st : State T E) : State T E :=
  if st.consumerDone then st
  else if st.pending then st
  else
    match st.q with
    | [] => { st with pending := true }
    | Slot.item v :: rest => { st with q := rest, out := st.out ++ [v] }
    | Slot.err e :: rest =>
        { st with q := rest, consumerDone := true, term := some (TermKind.threw e) }
    | Slot.done :: rest =>
        { st with q := rest, consumerDone := true, term := some TermKind.normal }

/-- Dispatch one atomic step. -/
def applyStep (st : State T E) : Step T E → State T E
  | Step.push v => push v st
  | Step.error e => error e st
  | Step.stop => stop st
  | Step.pull => pull st

/-- Run a sequence of atomic steps from a state. -/
def runSteps (st : State T E) : List (Step T E) → State T E
  | [] => st
  | a :: s => runSteps (applyStep st a) s

end CliAsyncQueue

/-- Slot correspondence between the two duplicated queue classes. -/
def convSlot : CliAsyncQueue.Slot T E → AsyncQueue.Slot T E
  | CliAsyncQueue.Slot.item v => AsyncQueue.Slot.item v
  | CliAsyncQueue.Slot.err e => AsyncQueue.Slot.err e
  | CliAsyncQueue.Slot.done => AsyncQueue.Slot.done

/-- State correspondence between the two duplicated queue classes. -/
def convState (st : CliAsyncQueue.State T E) : AsyncQueue.State T E :=
  { q := st.q.map convSlot, pending := st.pending, consumerDone := st.consumerDone,
    out := st.out, term := st.term, uncaught := st.uncaught }

/-! ## Helper lemmas: draining a queue -/

namespace AsyncQueue

lemma drainFuel_of_done (n : Nat) (st : State T E) (h : st.consumerDone = true) :
    drainFuel n st = st := by
  cases n <;> simp [drainFuel, h]

lemma drainFuel_of_nil (n : Nat) (st : State T E) (h : st.q = []) :
    drainFuel n st = st := by
  cases n <;> simp [drainFuel, h]

lemma drainFuel_items (l : List T) :
    ∀ (n : Nat) (st : State T E), st.consumerDone = false → st.pending = false →
      st.q = l.map Slot.item → l.length ≤ n →
      drainFuel n st = { st with q := [], out := st.out ++ l } := by
  induction l with
  | nil =>
    intro n st hd hp hq _
    rw [drainFuel_of_nil n st (by simpa using hq)]
    cases st
    simp_all
  | cons v l ih =>
    intro n st hd hp hq hn
    cases n with
    | zero => simp at hn
    | succ n =>
      have hq' : st.q = Slot.item v :: l.map Slot.item := by simpa using hq
      have hpull : pull st = { st with q := l.map Slot.item, out := st.out ++ [v] } := by
        simp [pull, hd, hp, hq']
      have hstep : drainFuel (n + 1) st = drainFuel n (pull st) := by
        simp [drainFuel, hd, hq']
      rw [hstep, hpull, ih n _ (by simp [hd]) (by simp [hp]) (by simp)
        (by simp at hn; omega)]
      simp

lemma drainFuel_sentinel (l : List T) :
    ∀ (n : Nat) (st : State T E) (sig : Sig E) (rest : List (Slot T E)),
      st.consumerDone = false → st.pending = false →
      st.q = l.map Slot.item ++ sentinel sig :: rest → l.length + 1 ≤ n →
      drainFuel n st =
        { st with q := rest, out := st.out ++ l,
                  consumerDone := true, term := some (sigTerm sig) } := by
  induction l with
  | nil =>
    intro n st sig rest hd hp hq hn
    cases n with
    | zero => simp at hn
    | succ n =>
      have hq' : st.q = sentinel sig :: rest := by simpa using hq
      have hstep : drainFuel (n + 1) st = drainFuel n (pull st) := by
        simp [drainFuel, hd, hq']
      rw [hstep]
      cases sig with
      | fin =>
        have hpull : pull st =
            { st with q := rest, consumerDone := true, term := some TermKind.normal } := by
          simp [pull, hd, hp, hq', sentinel]
        rw [hpull, drainFuel_of_done n _ (by simp)]
        simp [sigTerm]
      | err e =>
        have hpull : pull st =
            { st with q := rest, consumerDone := true, term := some (TermKind.threw e) } := by
          simp [pull, hd, hp, hq', sentinel]
        rw [hpull, drainFuel_of_done n _ (by simp)]
        simp [sigTerm]
  | cons v l ih =>
    intro n st sig rest hd hp hq hn
    cases n with
    | zero => simp at hn
    | succ n =>
      have hq' : st.q = Slot.item v :: (l.map Slot.item ++ sentinel sig :: rest) := by
        simpa using hq
      have hpull : pull st =
          { st with q := l.map Slot.item ++ sentinel sig :: rest,
                    out := st.out ++ [v] } := by
        simp [pull, hd, hp, hq']
      have hstep : drainFuel (n + 1) st = drainFuel n (pull st) := by
        simp [drainFuel, hd, hq']
      rw [hstep, hpull, ih n _ sig rest (by simp [hd]) (by simp [hp]) (by simp)
        (by simp at hn; omega)]
      simp

lemma drain_items (l : List T) (st : State T E)
    (hd : st.consumerDone = false) (hp : st.pending = false)
    (hq : st.q = l.map Slot.item) :
    drain st = { st with q := [], out := st.out ++ l } :=
  drainFuel_items l st.q.length st hd hp hq (by simp [hq])

lemma drain_sentinel (l : List T) (st : State T E) (sig : Sig E)
    (rest : List (Slot T E))
    (hd : st.consumerDone = false) (hp : st.pending = false)
    (hq : st.q = l.map Slot.item ++ sentinel sig :: rest) :
    drain st = { st with q := rest, out := st.out ++ l,
                         consumerDone := true, term := some (sigTerm sig) } :=
  drainFuel_sentinel l st.q.length st sig rest hd hp hq (by simp [hq])

lemma drain_of_done (st : State T E) (h : st.consumerDone = true) :
    drain st = st :=
  drainFuel_of_done st.q.length st h

/-- Producer calls with no waiting consumer only append their buffered
form to `q`. -/
lemma runSteps_producers (ops : List (Step T E)) :
    ∀ st : State T E, st.pending = false →
      (∀ a ∈ ops, isProducer a = true) →
      runSteps st ops = { st with q := st.q ++ slotsOf ops } := by
  induction ops with
  | nil =>
    intro st _ _
    cases st
    simp [runSteps, slotsOf]
  | cons a ops ih =>
    intro st hp hmem
    cases a with
    | push v =>
      have : applyStep st (Step.push v) = { st with q := st.q ++ [Slot.item v] } := by
        simp [applyStep, push, hp]
      rw [runSteps, this, ih _ (by simp [hp]) (fun a ha => hmem a (by simp [ha]))]
      simp [slotsOf, toSlot]
    | error e =>
      have : applyStep st (Step.error e) = { st with q := st.q ++ [Slot.err e] } := by
        simp [applyStep, error, hp]
      rw [runSteps, this, ih _ (by simp [hp]) (fun a ha => hmem a (by simp [ha]))]
      simp [slotsOf, toSlot]
    | stop =>
      have : applyStep st Step.stop = { st with q := st.q ++ [Slot.done] } := by
        simp [applyStep, stop, hp]
      rw [runSteps, this, ih _ (by simp [hp]) (fun a ha => hmem a (by simp [ha]))]
      simp [slotsOf, toSlot]
    | pull =>
      have := hmem Step.pull (by simp)
      simp [isProducer] at this

end AsyncQueue

/-! ## Helper lemmas: the global invariant -/

namespace AsyncQueue

/-- Each atomic step preserves the global invariant, with the ghost data
updated by `preStep` and `tkStep`. -/
lemma inv_step (pre : List T) (tk : Option (Sig E)) (st : State T E)
    (a : Step T E) (h : Inv pre tk st) :
    Inv (preStep pre tk a) (tkStep tk a) (applyStep st a) := by
  cases tk with
  | none =>
    obtain ⟨l, hq, hout, hpend, hcd, hterm, hunc⟩ := h
    cases a with
    | push v =>
      cases hp : st.pending with
      | true =>
        have hl : l = [] := hpend hp
        subst hl
        refine ⟨[], ?_, ?_, ?_, ?_, ?_, ?_⟩ <;>
          simp_all [applyStep, push, preStep, tkStep]
      | false =>
        refine ⟨l ++ [v], ?_, ?_, ?_, ?_, ?_, ?_⟩ <;>
          simp_all [applyStep, push, preStep, tkStep, ← List.append_assoc]
    | error e =>
      show stoppedInv (preStep pre none (Step.error e)) (Sig.err e) _
      cases hp : st.pending with
      | true =>
        have hl : l = [] := hpend hp
        subst hl
        left
        refine ⟨?_, ?_, ?_, Or.inr ⟨?_, ?_⟩⟩ <;>
          simp_all [applyStep, error, preStep, sigOutcome]
      | false =>
        right
        refine ⟨?_, ?_, ?_, ?_, l, [], ?_, ?_⟩ <;>
          simp_all [applyStep, error, preStep, sentinel]
    | stop =>
      show stoppedInv (preStep pre none Step.stop) Sig.fin _
      cases hp : st.pending with
      | true =>
        have hl : l = [] := hpend hp
        subst hl
        left
        refine ⟨?_, ?_, ?_, ?_, ?_⟩ <;>
          simp_all [applyStep, stop, preStep, sigOutcome]
      | false =>
        right
        refine ⟨?_, ?_, ?_, ?_, l, [], ?_, ?_⟩ <;>
          simp_all [applyStep, stop, preStep, sentinel]
    | pull =>
      show runningInv pre _
      cases hp : st.pending with
      | true =>
        have hpl : applyStep st Step.pull = st := by
          simp [applyStep, pull, hcd, hp]
        rw [hpl]
        exact ⟨l, hq, hout, hpend, hcd, hterm, hunc⟩
      | false =>
        cases l with
        | nil =>
          have hq0 : st.q = [] := by simpa using hq
          have hpl : applyStep st Step.pull = { st with pending := true } := by
            simp [applyStep, pull, hcd, hp, hq0]
          rw [hpl]
          exact ⟨[], by simpa using hq0, by simpa using hout,
            fun _ => rfl, hcd, hterm, hunc⟩
        | cons v l' =>
          have hq' : st.q = Slot.item v :: l'.map Slot.item := by simpa using hq
          have hpl : applyStep st Step.pull =
              { st with q := l'.map Slot.item, out := st.out ++ [v] } := by
            simp [applyStep, pull, hcd, hp, hq']
          rw [hpl]
          refine ⟨l', by simp, ?_, by simp [hp], hcd, hterm, hunc⟩
          rw [show st.out ++ [v] ++ l' = st.out ++ (v :: l') by simp]
          exact hout
  | some sig =>
    have hpre : preStep pre (some sig) a = pre := by
      cases a <;> simp [preStep]
    have htk : tkStep (some sig) a = some sig := by
      cases a <;> simp [tkStep]
    rw [hpre, htk]
    show stoppedInv pre sig _
    cases h with
    | inl hfin =>
      obtain ⟨hcd, hout, hp, hsig⟩ := hfin
      left
      cases a with
      | push v =>
        refine ⟨?_, ?_, ?_, ?_⟩ <;>
          [skip; skip; skip;
           exact (by cases sig <;> simp_all [applyStep, push, sigOutcome])] <;>
          simp_all [applyStep, push]
      | error e =>
        refine ⟨?_, ?_, ?_, ?_⟩ <;>
          [skip; skip; skip;
           exact (by cases sig <;> simp_all [applyStep, error, sigOutcome])] <;>
          simp_all [applyStep, error]
      | stop =>
        refine ⟨?_, ?_, ?_, ?_⟩ <;>
          [skip; skip; skip;
           exact (by cases sig <;> simp_all [applyStep, stop, sigOutcome])] <;>
          simp_all [applyStep, stop]
      | pull =>
        have hpl : applyStep st Step.pull = st := by
          simp [applyStep, pull, hcd]
        rw [hpl]
        exact ⟨hcd, hout, hp, hsig⟩
    | inr hbuf =>
      obtain ⟨hcd, hp, hterm, hunc, l, rest, hq, hout⟩ := hbuf
      cases a with
      | push v =>
        right
        refine ⟨?_, ?_, ?_, ?_, l, rest ++ [Slot.item v], ?_, ?_⟩ <;>
          simp_all [applyStep, push]
      | error e =>
        right
        refine ⟨?_, ?_, ?_, ?_, l, rest ++ [Slot.err e], ?_, ?_⟩ <;>
          simp_all [applyStep, error]
      | stop =>
        right
        refine ⟨?_, ?_, ?_, ?_, l, rest ++ [Slot.done], ?_, ?_⟩ <;>
          simp_all [applyStep, stop]
      | pull =>
        cases l with
        | nil =>
          have hq' : st.q = sentinel sig :: rest := by simpa using hq
          cases sig with
          | fin =>
            have hpl : applyStep st Step.pull =
                { st with q := rest, consumerDone := true,
                          term := some TermKind.normal } := by
              simp [applyStep, pull, hcd, hp, hq', sentinel]
            rw [hpl]
            left
            exact ⟨rfl, by simpa using hout, hp, by simp [sigOutcome, hunc]⟩
          | err e =>
            have hpl : applyStep st Step.pull =
                { st with q := rest, consumerDone := true,
                          term := some (TermKind.threw e) } := by
              simp [applyStep, pull, hcd, hp, hq', sentinel]
            rw [hpl]
            left
            exact ⟨rfl, by simpa using hout, hp,
              Or.inl (by simp [sigOutcome, hunc])⟩
        | cons v l' =>
          have hq' : st.q =
              Slot.item v :: (l'.map Slot.item ++ sentinel sig :: rest) := by
            simpa using hq
          have hpl : applyStep st Step.pull =
              { st with q := l'.map Slot.item ++ sentinel sig :: rest,
                        out := st.out ++ [v] } := by
            simp [applyStep, pull, hcd, hp, hq']
          rw [hpl]
          right
          refine ⟨hcd, by simp [hp], hterm, hunc, l', rest, by simp, ?_⟩
          rw [show st.out ++ [v] ++ l' = st.out ++ (v :: l') by simp]
          exact hout

end AsyncQueue

namespace AsyncQueue

/-- Running any step sequence preserves the global invariant. -/
lemma inv_run (s : List (Step T E)) :
    ∀ (pre : List T) (tk : Option (Sig E)) (st : State T E), Inv pre tk st →
      Inv (preOfAux pre tk s) (tkOfAux tk s) (runSteps st s) := by
  induction s with
  | nil => intro pre tk st h; exact h
  | cons a s ih =>
    intro pre tk st h
    exact ih _ _ _ (inv_step pre tk st a h)

/-- The invariant holds of every reachable state of one invocation. -/
lemma inv_master (s : List (Step T E)) :
    Inv (preOf s) (tkOf s) (runSteps (initState T E) s) :=
  inv_run s [] none (initState T E)
    ⟨[], by simp [initState], by simp [initState], fun _ => rfl,
      rfl, rfl, rfl⟩

/-- A consumer that keeps pulling receives exactly the values pushed
before the first terminal call, in push order. -/
lemma drained_out (s : List (Step T E)) :
    (drain (runSteps (initState T E) s)).out = preOf s := by
  have h := inv_master (T := T) (E := E) s
  cases htk : tkOf s with
  | none =>
    rw [htk] at h
    obtain ⟨l, hq, hout, hpend, hcd, hterm, hunc⟩ := h
    cases hp : (runSteps (initState T E) s).pending with
    | true =>
      have hl : l = [] := hpend hp
      subst hl
      rw [drain, drainFuel_of_nil _ _ (by simpa using hq)]
      simpa using hout
    | false =>
      rw [drain_items l _ hcd hp hq]
      simpa using hout
  | some sig =>
    rw [htk] at h
    cases h with
    | inl hfin =>
      obtain ⟨hcd, hout, hp, hsig⟩ := hfin
      rw [drain_of_done _ hcd]
      exact hout
    | inr hbuf =>
      obtain ⟨hcd, hp, hterm, hunc, l, rest, hq, hout⟩ := hbuf
      rw [drain_sentinel l _ sig rest hcd hp hq]
      exact hout

/-- After draining, a terminal call has surfaced in one of its legal
outcome shapes and the iteration has ended. -/
lemma drained_sig (s : List (Step T E)) (sig : Sig E) (htk : tkOf s = some sig) :
    sigOutcome sig (drain (runSteps (initState T E) s)) ∧
      (drain (runSteps (initState T E) s)).consumerDone = true := by
  have h := inv_master (T := T) (E := E) s
  rw [htk] at h
  cases h with
  | inl hfin =>
    obtain ⟨hcd, hout, hp, hsig⟩ := hfin
    rw [drain_of_done _ hcd]
    exact ⟨hsig, hcd⟩
  | inr hbuf =>
    obtain ⟨hcd, hp, hterm, hunc, l, rest, hq, hout⟩ := hbuf
    rw [drain_sentinel l _ sig rest hcd hp hq]
    cases sig with
    | fin => exact ⟨⟨by simp [sigTerm], by simp [hunc]⟩, rfl⟩
    | err e => exact ⟨Or.inl ⟨by simp [sigTerm], by simp [hunc]⟩, rfl⟩

/-- Once the first terminal call has happened, the ghost data is frozen. -/
lemma aux_of_some (s : List (Step T E)) :
    ∀ (pre : List T) (sig : Sig E),
      preOfAux pre (some sig) s = pre ∧ tkOfAux (some sig) s = some sig := by
  induction s with
  | nil => intro pre sig; exact ⟨rfl, rfl⟩
  | cons a s ih =>
    intro pre sig
    have h1 : preStep pre (some sig) a = pre := by cases a <;> simp [preStep]
    have h2 : tkStep (some sig) (T := T) a = some sig := by cases a <;> simp [tkStep]
    rw [preOfAux, tkOfAux, h1, h2]
    exact ih pre sig

/-- A step sequence whose producer calls are pushes of `P` followed by
one `end()` has ghost data `P` and first terminal `end`. -/
lemma producers_spec (s : List (Step T E)) :
    ∀ (P pre : List T), producers s = P.map Step.push ++ [Step.stop] →
      preOfAux pre none s = pre ++ P ∧ tkOfAux (T := T) none s = some Sig.fin := by
  induction s with
  | nil =>
    intro P pre h
    simp only [producers, List.filter_nil] at h
    cases P <;> simp at h
  | cons a s ih =>
    intro P pre h
    cases a with
    | pull =>
      have hprod : producers (Step.pull :: s) = producers s := by
        simp [producers, isProducer]
      rw [hprod] at h
      rw [preOfAux, tkOfAux]
      simpa [preStep, tkStep] using ih P pre h
    | push v =>
      have hprod : producers (Step.push v :: s) =
          Step.push v :: producers s := by
        simp [producers, isProducer]
      rw [hprod] at h
      cases P with
      | nil => simp at h
      | cons v' P' =>
        simp only [List.map_cons, List.cons_append, List.cons.injEq] at h
        obtain ⟨hv, hrest⟩ := h
        have hv' : v = v' := by injection hv
        subst hv'
        rw [preOfAux, tkOfAux]
        have := ih P' (pre ++ [v]) hrest
        simpa [preStep, tkStep, List.append_assoc] using this
    | error e =>
      have hprod : producers (Step.error e :: s) =
          Step.error e :: producers s := by
        simp [producers, isProducer]
      rw [hprod] at h
      cases P <;> simp at h
    | stop =>
      have hprod : producers (Step.stop :: s) = Step.stop :: producers s := by
        simp [producers, isProducer]
      rw [hprod] at h
      cases P with
      | nil =>
        simp only [List.map_nil, List.nil_append, List.cons.injEq] at h
        rw [preOfAux, tkOfAux]
        have := aux_of_some (T := T) (E := E) s pre Sig.fin
        simpa [preStep, tkStep] using this
      | cons v P' => simp at h

end AsyncQueue

/-! ## Helper lemmas: the line framer -/

/-- The JavaScript split never returns an empty segment list. -/
lemma jsSplit_ne_nil (l : List Char) : jsSplit l ≠ [] := by
  cases l with
  | nil => simp [jsSplit]
  | cons c cs =>
    by_cases h : c = '\n'
    · simp [jsSplit, h]
    · cases hs : jsSplit cs <;> simp [jsSplit, h, hs]

lemma splitNl_cons_nl (cs : List Char) :
    splitNl ('\n' :: cs) = ([] :: (splitNl cs).1, (splitNl cs).2) := by
  simp [splitNl]

lemma splitNl_cons_frag (c : Char) (cs : List Char) (h : ¬ c = '\n')
    (hL : (splitNl cs).1 = []) :
    splitNl (c :: cs) = ([], c :: (splitNl cs).2) := by
  simp [splitNl, h, hL]

lemma splitNl_cons_line (c : Char) (cs : List Char) (s : List Char)
    (rest : List (List Char)) (h : ¬ c = '\n')
    (hL : (splitNl cs).1 = s :: rest) :
    splitNl (c :: cs) = ((c :: s) :: rest, (splitNl cs).2) := by
  simp [splitNl, h, hL]

/-- `jsSplit` is `splitNl` with the trailing fragment still attached as
the last segment. -/
lemma jsSplit_eq_splitNl (l : List Char) :
    jsSplit l = (splitNl l).1 ++ [(splitNl l).2] := by
  induction l with
  | nil => simp [jsSplit, splitNl]
  | cons c cs ih =>
    by_cases h : c = '\n'
    · subst h
      rw [splitNl_cons_nl]
      simp [jsSplit, ih]
    · cases hs : (splitNl cs).1 with
      | nil =>
        have hj : jsSplit cs = [(splitNl cs).2] := by rw [ih, hs]; rfl
        rw [splitNl_cons_frag c cs h hs]
        simp [jsSplit, h, hj]
      | cons s rest =>
        have hj : jsSplit cs = s :: (rest ++ [(splitNl cs).2]) := by
          rw [ih, hs]; rfl
        rw [splitNl_cons_line c cs s rest h hs]
        simp [jsSplit, h, hj]

/-- Splitting a concatenation: the fragment of the first part glues onto
the first line of the second part. -/
lemma splitNl_append (a : List Char) :
    ∀ b : List Char,
      splitNl (a ++ b) =
        ((splitNl a).1 ++ (glue (splitNl a).2 (splitNl b)).1,
          (glue (splitNl a).2 (splitNl b)).2) := by
  induction a with
  | nil =>
    intro b
    rw [show ([] : List Char) ++ b = b from rfl]
    cases hsb : splitNl b with
    | mk L f => cases L <;> simp [splitNl, glue, hsb]
  | cons c a ih =>
    intro b
    by_cases h : c = '\n'
    · subst h
      rw [List.cons_append, splitNl_cons_nl, splitNl_cons_nl, ih b]
      simp
    · cases ha : (splitNl a).1 with
      | nil =>
        cases hb : (splitNl b).1 with
        | nil =>
          have hab : (splitNl (a ++ b)).1 = [] := by
            rw [ih b]; simp [glue, ha, hb]
          rw [List.cons_append, splitNl_cons_frag c (a ++ b) h hab,
            splitNl_cons_frag c a h ha, ih b]
          simp [glue, ha, hb]
        | cons s2 rest2 =>
          have hab : (splitNl (a ++ b)).1 =
              ((splitNl a).2 ++ s2) :: rest2 := by
            rw [ih b]; simp [glue, ha, hb]
          rw [List.cons_append,
            splitNl_cons_line c (a ++ b) _ _ h hab,
            splitNl_cons_frag c a h ha, ih b]
          simp [glue, ha, hb]
      | cons s rest =>
        have hab : (splitNl (a ++ b)).1 =
            s :: (rest ++ (glue (splitNl a).2 (splitNl b)).1) := by
          rw [ih b]; simp [ha]
        rw [List.cons_append,
          splitNl_cons_line c (a ++ b) _ _ h hab,
          splitNl_cons_line c a s rest h ha, ih b]
        simp

/-- A newline-free text is all fragment. -/
lemma splitNl_nlfree (l : List Char) (h : '\n' ∉ l) : splitNl l = ([], l) := by
  induction l with
  | nil => rfl
  | cons c cs ih =>
    have hc : ¬ c = '\n' := fun hc => h (by simp [hc])
    have ih' := ih (fun hm => h (by simp [hm]))
    rw [splitNl_cons_frag c cs hc (by rw [ih']), ih']

/-- The retained fragment never contains a newline. -/
lemma frag_nlfree (l : List Char) : '\n' ∉ (splitNl l).2 := by
  induction l with
  | nil => simp [splitNl]
  | cons c cs ih =>
    by_cases h : c = '\n'
    · subst h
      rw [splitNl_cons_nl]
      simpa using ih
    · cases hs : (splitNl cs).1 with
      | nil =>
        rw [splitNl_cons_frag c cs h hs]
        intro hm
        rcases List.mem_cons.mp hm with h1 | h2
        · exact h h1.symm
        · exact ih h2
      | cons s rest =>
        rw [splitNl_cons_line c cs s rest h hs]
        simpa using ih

/-- The stdout handler on one chunk, phrased through `splitNl`. -/
lemma feed_splitNl (parse : List Char → Option T) (buffer chunk : List Char) :
    feed parse buffer chunk =
      ((splitNl (buffer ++ chunk)).1.filterMap (parseLine parse),
        (splitNl (buffer ++ chunk)).2) := by
  unfold feed
  rw [jsSplit_eq_splitNl]
  simp [List.dropLast_concat, List.getLastD_eq_getLast?, List.getLast?_concat]

/-- Incremental feeding of chunks equals one split of the concatenated
text: the emitted events are the parse successes of its complete lines in
order, and the retained buffer is its trailing fragment. -/
lemma feedAll_spec (parse : List Char → Option T) :
    ∀ (chunks : List (List Char)) (buffer : List Char), '\n' ∉ buffer →
      feedAll parse buffer chunks =
        ((splitNl (buffer ++ chunks.flatten)).1.filterMap (parseLine parse),
          (splitNl (buffer ++ chunks.flatten)).2) := by
  intro chunks
  induction chunks with
  | nil =>
    intro buffer hb
    rw [feedAll]
    simp [splitNl_nlfree buffer hb]
  | cons chunk rest ih =>
    intro buffer hb
    rw [feedAll, feed_splitNl]
    have hfrag := frag_nlfree (buffer ++ chunk)
    rw [ih _ hfrag]
    have hglue : splitNl ((splitNl (buffer ++ chunk)).2 ++ rest.flatten) =
        glue (splitNl (buffer ++ chunk)).2 (splitNl rest.flatten) := by
      rw [splitNl_append, splitNl_nlfree _ hfrag]
      simp
    have htot : splitNl (buffer ++ (chunk :: rest).flatten) =
        ((splitNl (buffer ++ chunk)).1 ++
            (glue (splitNl (buffer ++ chunk)).2 (splitNl rest.flatten)).1,
          (glue (splitNl (buffer ++ chunk)).2 (splitNl rest.flatten)).2) := by
      have harr : buffer ++ (chunk :: rest).flatten =
          (buffer ++ chunk) ++ rest.flatten := by
        simp
      rw [harr, splitNl_append]
    rw [hglue, htot]
    simp

/-- Under a parser rejecting whitespace-only lines (as `JSON.parse`
does), the blank-line skip of the handler is invisible. -/
lemma filterMap_parseLine (parse : List Char → Option T)
    (hb : ∀ l, isBlank l = true → parse l = none) (L : List (List Char)) :
    L.filterMap (parseLine parse) = L.filterMap parse := by
  induction L with
  | nil => rfl
  | cons x L ih =>
    by_cases hx : isBlank x
    · simp [List.filterMap_cons, parseLine, hx, hb x hx, ih]
    · simp [List.filterMap_cons, parseLine, hx, ih]

/-! ## Helper lemmas: equivalence of the duplicated queues, shape
computations, substring facts -/

lemma convState_apply (st : CliAsyncQueue.State T E) (a : Step T E) :
    convState (CliAsyncQueue.applyStep st a) =
      AsyncQueue.applyStep (convState st) a := by
  cases a with
  | push v =>
    by_cases hp : st.pending <;>
      simp [CliAsyncQueue.applyStep, AsyncQueue.applyStep,
        CliAsyncQueue.push, AsyncQueue.push, convState, convSlot, hp]
  | error e =>
    by_cases hp : st.pending <;>
      simp [CliAsyncQueue.applyStep, AsyncQueue.applyStep,
        CliAsyncQueue.error, AsyncQueue.error, convState, convSlot, hp]
  | stop =>
    by_cases hp : st.pending <;>
      simp [CliAsyncQueue.applyStep, AsyncQueue.applyStep,
        CliAsyncQueue.stop, AsyncQueue.stop, convState, convSlot, hp]
  | pull =>
    by_cases hd : st.consumerDone
    · simp [CliAsyncQueue.applyStep, AsyncQueue.applyStep,
        CliAsyncQueue.pull, AsyncQueue.pull, convState, hd]
    · by_cases hp : st.pending
      · simp [CliAsyncQueue.applyStep, AsyncQueue.applyStep,
          CliAsyncQueue.pull, AsyncQueue.pull, convState, hd, hp]
      · cases hq : st.q with
        | nil =>
          simp [CliAsyncQueue.applyStep, AsyncQueue.applyStep,
            CliAsyncQueue.pull, AsyncQueue.pull, convState, hd, hp, hq]
        | cons slot rest =>
          cases slot <;>
            simp [CliAsyncQueue.applyStep, AsyncQueue.applyStep,
              CliAsyncQueue.pull, AsyncQueue.pull, convState, convSlot,
              hd, hp, hq]

lemma convState_run (s : List (Step T E)) :
    ∀ st : CliAsyncQueue.State T E,
      convState (CliAsyncQueue.runSteps st s) =
        AsyncQueue.runSteps (convState st) s := by
  induction s with
  | nil => intro st; rfl
  | cons a s ih =>
    intro st
    rw [CliAsyncQueue.runSteps, AsyncQueue.runSteps, ← convState_apply, ih]

namespace AsyncQueue

lemma slotsOf_pushes (A : List T) :
    slotsOf (A.map Step.push : List (Step T E)) = A.map Slot.item := by
  induction A with
  | nil => rfl
  | cons v A ih => simp [slotsOf, List.filterMap_cons, toSlot] at ih ⊢; exact ih

lemma pushes_producers (A : List T) :
    ∀ a ∈ (A.map Step.push : List (Step T E)), isProducer a = true := by
  intro a ha
  obtain ⟨v, _, rfl⟩ := List.mem_map.mp ha
  rfl

/-- Pushing `A` into a fresh queue and then draining delivers exactly
`A`, leaving a live empty queue. -/
lemma drained_pushes_only (A : List T) :
    drain (runSteps (initState T E) (A.map Step.push)) =
      { q := [], pending := false, consumerDone := false, out := A,
        term := none, uncaught := [] } := by
  rw [runSteps_producers _ _ rfl (pushes_producers A), slotsOf_pushes]
  rw [drain_items A _ rfl rfl (by simp [initState])]
  simp [initState]

/-- Buffered-consumer shape: pushes of `A`, then `error e; end()`, then
pushes of `Q`, then a consumer draining from the start: `A` is delivered,
`e` is thrown by the pull operation, nothing after is seen. -/
lemma drained_shape_err (A Q : List T) (e : E) :
    drain (runSteps (initState T E)
        (A.map Step.push ++ [Step.error e, Step.stop] ++ Q.map Step.push)) =
      { q := Slot.done :: Q.map Slot.item, pending := false,
        consumerDone := true, out := A,
        term := some (TermKind.threw e), uncaught := [] } := by
  have hmem : ∀ a ∈ (A.map Step.push ++ [Step.error e, Step.stop] ++
      Q.map Step.push : List (Step T E)), isProducer a = true := by
    intro a ha
    rcases List.mem_append.mp ha with h | h
    · rcases List.mem_append.mp h with h1 | h1
      · exact pushes_producers A a h1
      · simp only [List.mem_cons, List.not_mem_nil, or_false] at h1
        rcases h1 with rfl | rfl <;> rfl
    · exact pushes_producers Q a h
  rw [runSteps_producers _ _ rfl hmem]
  have hslots : slotsOf (A.map Step.push ++ [Step.error e, Step.stop] ++
      Q.map Step.push : List (Step T E)) =
      A.map Slot.item ++ Slot.err e :: Slot.done :: Q.map Slot.item := by
    unfold slotsOf
    rw [List.filterMap_append, List.filterMap_append,
      show List.filterMap toSlot (A.map Step.push) = A.map Slot.item from
        slotsOf_pushes A,
      show List.filterMap toSlot (Q.map Step.push) = Q.map Slot.item from
        slotsOf_pushes Q]
    simp [List.filterMap_cons, toSlot]
  rw [hslots]
  rw [drain_sentinel A _ (Sig.err e) (Slot.done :: Q.map Slot.item) rfl rfl
    (by simp [initState, sentinel])]
  simp [initState, sigTerm]

/-- Buffered-consumer shape for `end()` before `error e`: `A` is
delivered, the iteration completes normally, and `e` is never seen. -/
lemma drained_shape_fin_err (A Q : List T) (e : E) :
    drain (runSteps (initState T E)
        (A.map Step.push ++ [Step.stop, Step.error e] ++ Q.map Step.push)) =
      { q := Slot.err e :: Q.map Slot.item, pending := false,
        consumerDone := true, out := A,
        term := some TermKind.normal, uncaught := [] } := by
  have hmem : ∀ a ∈ (A.map Step.push ++ [Step.stop, Step.error e] ++
      Q.map Step.push : List (Step T E)), isProducer a = true := by
    intro a ha
    rcases List.mem_append.mp ha with h | h
    · rcases List.mem_append.mp h with h1 | h1
      · exact pushes_producers A a h1
      · simp only [List.mem_cons, List.not_mem_nil, or_false] at h1
        rcases h1 with rfl | rfl <;> rfl
    · exact pushes_producers Q a h
  rw [runSteps_producers _ _ rfl hmem]
  have hslots : slotsOf (A.map Step.push ++ [Step.stop, Step.error e] ++
      Q.map Step.push : List (Step T E)) =
      A.map Slot.item ++ Slot.done :: Slot.err e :: Q.map Slot.item := by
    unfold slotsOf
    rw [List.filterMap_append, List.filterMap_append,
      show List.filterMap toSlot (A.map Step.push) = A.map Slot.item from
        slotsOf_pushes A,
      show List.filterMap toSlot (Q.map Step.push) = Q.map Slot.item from
        slotsOf_pushes Q]
    simp [List.filterMap_cons, toSlot]
  rw [hslots]
  rw [drain_sentinel A _ Sig.fin (Slot.err e :: Q.map Slot.item) rfl rfl
    (by simp [initState, sentinel])]
  simp [initState, sigTerm]

/-- Buffered-consumer shape for a clean `end()`. -/
lemma drained_shape_fin (A : List T) :
    drain (runSteps (initState T E) (A.map Step.push ++ [Step.stop])) =
      { q := [], pending := false, consumerDone := true, out := A,
        term := some TermKind.normal, uncaught := [] } := by
  have hmem : ∀ a ∈ (A.map Step.push ++ [Step.stop] : List (Step T E)),
      isProducer a = true := by
    intro a ha
    rcases List.mem_append.mp ha with h | h
    · exact pushes_producers A a h
    · simp_all [isProducer]
  rw [runSteps_producers _ _ rfl hmem]
  have hslots : slotsOf (A.map Step.push ++ [Step.stop] : List (Step T E)) =
      A.map Slot.item ++ Slot.done :: [] := by
    unfold slotsOf
    rw [List.filterMap_append,
      show List.filterMap toSlot (A.map Step.push) = A.map Slot.item from
        slotsOf_pushes A]
    simp [List.filterMap_cons, toSlot]
  rw [hslots]
  rw [drain_sentinel A _ Sig.fin [] rfl rfl (by simp [initState, sentinel])]
  simp [initState, sigTerm]

/-- Blocked-consumer shape: the consumer has drained `A` and is blocked
waiting when `error e; end()` arrives: the iteration completes normally,
`A` is all it ever received, and `e` escapes on the side channel. -/
lemma blocked_error_stop (A : List T) (e : E) :
    runSteps (drain (runSteps (initState T E) (A.map Step.push)))
        [Step.pull, Step.error e, Step.stop] =
      { q := [Slot.done], pending := false, consumerDone := true, out := A,
        term := some TermKind.normal, uncaught := [e] } := by
  rw [drained_pushes_only]
  simp [runSteps, applyStep, pull, error, stop]

end AsyncQueue

lemma hasPrefixL_self (p : List Char) : hasPrefixL p p = true := by
  induction p with
  | nil => rfl
  | cons c cs ih => simp [hasPrefixL, ih]

lemma hasSegment_append_self (p : List Char) :
    ∀ a : List Char, hasSegment p (a ++ p) = true := by
  intro a
  induction a with
  | nil =>
    cases p with
    | nil => simp [hasSegment, hasPrefixL]
    | cons c cs =>
      rw [List.nil_append]
      simp [hasSegment, hasPrefixL_self]
  | cons c a ih =>
    rw [List.cons_append]
    cases hx : a ++ p with
    | nil =>
      have : p = [] := by
        cases List.append_eq_nil.mp hx with
        | intro h1 h2 => exact h2
      subst this
      simp [hasSegment, hasPrefixL]
    | cons y ys =>
      rw [hasSegment, ← hx, ih]
      simp

namespace AsyncQueue

/-- Instance of `drained_shape_err` with nothing pushed after the
terminal pair. -/
lemma drained_shape_err0 (A : List T) (e : E) :
    drain (runSteps (initState T E)
        (A.map Step.push ++ [Step.error e, Step.stop])) =
      { q := [Slot.done], pending := false, consumerDone := true, out := A,
        term := some (TermKind.threw e), uncaught := [] } := by
  have h := drained_shape_err A [] e
  simpa using h

/-- Outcome of pushing `A` and then performing the terminal calls the
`forward` task makes for a lifecycle outcome `o`, for a consumer that
drains from the start. -/
lemma drained_pushes_termOps (A : List T) (o : Option E) :
    (drain (runSteps (initState T E) (A.map Step.push ++ termOps o))).out = A ∧
    (drain (runSteps (initState T E) (A.map Step.push ++ termOps o))).consumerDone
      = true ∧
    (drain (runSteps (initState T E) (A.map Step.push ++ termOps o))).term =
      some (match o with
            | none => TermKind.normal
            | some e => TermKind.threw e) ∧
    (drain (runSteps (initState T E) (A.map Step.push ++ termOps o))).uncaught
      = [] := by
  cases o with
  | none => simp [termOps, drained_shape_fin]
  | some e => simp [termOps, drained_shape_err0]

end AsyncQueue

lemma toList_append (a b : String) : (a ++ b).toList = a.toList ++ b.toList := by
  cases a; cases b; rfl

open AsyncQueue

/-! ## The claims -/

/-- Claim C3 (confirmed): for every finite sequence of values pushed into
a fresh `AsyncQueue` followed by a single `end()`, a consumer iterating
from the start receives exactly those values, in push order, with nothing
dropped or duplicated, and the iteration then completes normally without
throwing — for every interleaving of the pushes with the consumer's
pulls. -/
theorem C3_pushes_then_end_delivered_in_order {T E : Type} (P : List T)
    (s : List (Step T E))
    (hs : producers s = P.map Step.push ++ [Step.stop]) :
    (drain (runSteps (initState T E) s)).out = P ∧
    (drain (runSteps (initState T E) s)).term = some TermKind.normal ∧
    (drain (runSteps (initState T E) s)).uncaught = [] := by
  have hgh := producers_spec s P [] hs
  have hpre : preOf s = P := by simpa [preOf] using hgh.1
  have htk : tkOf s = some Sig.fin := hgh.2
  have hout := drained_out (T := T) (E := E) s
  have hsig := drained_sig (T := T) (E := E) s Sig.fin htk
  have hsig1 : (drain (runSteps (initState T E) s)).term = some TermKind.normal ∧
      (drain (runSteps (initState T E) s)).uncaught = [] := hsig.1
  exact ⟨hpre ▸ hout, hsig1.1, hsig1.2⟩

/-- Witness for C3 at a concrete interleaving of two pushes, three pulls
and the `end()`. -/
theorem C3_witness :
    producers ([Step.push 1, Step.pull, Step.push 2, Step.pull, Step.pull,
        Step.stop] : List (Step Nat Nat)) =
      [1, 2].map Step.push ++ [Step.stop] ∧
    (drain (runSteps (initState Nat Nat)
        [Step.push 1, Step.pull, Step.push 2, Step.pull, Step.pull,
          Step.stop])).out = [1, 2] :=
  ⟨rfl, (C3_pushes_then_end_delivered_in_order [1, 2]
    [Step.push 1, Step.pull, Step.push 2, Step.pull, Step.pull, Step.stop]
    (by rfl)).1⟩

/-- Claim C8 (confirmed): across every interleaving of `push`, `error`,
`end` and single-consumer pulls, at most one pending resolver is stored
(`pending` is a single optional field, so this is structural), and it is
stored only while the internal buffer `q` is empty. -/
theorem C8_pending_only_on_empty_buffer {T E : Type} (s : List (Step T E))
    (h : (runSteps (initState T E) s).pending = true) :
    (runSteps (initState T E) s).q = [] := by
  have hm := inv_master (T := T) (E := E) s
  cases htk : tkOf s with
  | none =>
    rw [htk] at hm
    obtain ⟨l, hq, _, hpend, _, _, _⟩ := hm
    rw [hq, hpend h]
    rfl
  | some sig =>
    rw [htk] at hm
    cases hm with
    | inl hfin => rw [hfin.2.2.1] at h; cases h
    | inr hbuf => rw [hbuf.2.1] at h; cases h

/-- Witness for C8: one pull on the fresh queue blocks the consumer, and
the buffer is indeed empty. -/
theorem C8_witness :
    (runSteps (initState Nat Nat) [Step.pull]).pending = true ∧
    (runSteps (initState Nat Nat) [Step.pull]).q = [] :=
  ⟨rfl, C8_pending_only_on_empty_buffer [Step.pull] rfl⟩

/-- Claim C9 (confirmed): `error` and `end` are terminal. Whatever the
operation sequence, the values the consumer has received at any point are
a prefix of the values pushed strictly before the first terminal call, in
exactly push order; and a consumer that keeps pulling receives exactly
that list, so nothing pushed after the first terminal call is ever
delivered. -/
theorem C9_terminal_calls_are_final {T E : Type} (s : List (Step T E)) :
    (drain (runSteps (initState T E) s)).out = preOf s ∧
    ∃ l, (runSteps (initState T E) s).out ++ l = preOf s := by
  refine ⟨drained_out s, ?_⟩
  have h := inv_master (T := T) (E := E) s
  cases htk : tkOf s with
  | none =>
    rw [htk] at h
    obtain ⟨l, _, hout, _, _, _, _⟩ := h
    exact ⟨l, hout⟩
  | some sig =>
    rw [htk] at h
    cases h with
    | inl hfin => exact ⟨[], by simp [hfin.2.1]⟩
    | inr hbuf =>
      obtain ⟨_, _, _, _, l, rest, _, hout⟩ := hbuf
      exact ⟨l, hout⟩

/-- Claim C10 (confirmed): the `AsyncQueue` class of `codex-sdk/src/sdk.ts`
and the `AsyncQueue` class of the `codex-cli` bridge variant are
extensionally equivalent: running any operation sequence from fresh
instances produces identical states — in particular identical delivered
values, identical thrown or escaped errors, and identical completion. -/
theorem C10_duplicated_queues_equivalent {T E : Type} (s : List (Step T E)) :
    convState (CliAsyncQueue.runSteps (CliAsyncQueue.initState T E) s) =
      AsyncQueue.runSteps (AsyncQueue.initState T E) s := by
  rw [convState_run s]
  rfl

/-- Claim C7 (confirmed): for every sequence of stdout chunks, the framer
emits exactly the successful parses of the complete newline-delimited
lines of the concatenated input, in arrival order, and retains the
unterminated trailing fragment across chunks with no bytes dropped or
duplicated; a line that fails to parse (the parser returns `none`, as
`JSON.parse` does on malformed or whitespace-only text) contributes no
event and no error and leaves the framing of later lines untouched. -/
theorem C7_framer_parses_complete_lines {T : Type} (parse : List Char → Option T)
    (chunks : List (List Char))
    (hb : ∀ l, isBlank l = true → parse l = none) :
    feedAll parse [] chunks =
      (((jsSplit chunks.flatten).dropLast).filterMap parse,
        (jsSplit chunks.flatten).getLastD []) := by
  rw [feedAll_spec parse chunks [] (by simp), filterMap_parseLine parse hb,
    jsSplit_eq_splitNl]
  simp [List.dropLast_concat, List.getLastD_eq_getLast?, List.getLast?_concat]

/-- Witness for C7: three chunks whose concatenation holds two parseable
lines, one unparseable line, and an empty trailing fragment. -/
theorem C7_witness :
    feedAll w7parse [] [['a'], ['\n'], ['b', '\n', 'a', '\n']] = ([1, 1], []) := by
  have h := C7_framer_parses_complete_lines w7parse
    [['a'], ['\n'], ['b', '\n', 'a', '\n']]
    (fun l hl => by simp [w7parse, hl])
  rw [h]
  rfl

/-- Claim C1 (counterexample): the claim asserts every failure is thrown
from the pull operation, in particular when the consumer is blocked
waiting when `error(err)` is called. On the code, a blocked consumer is
resolved with end-of-sequence: the iteration terminates normally (never
with a throw) and the failure escapes on a separate tick. -/
theorem C1_counterexample :
    (runSteps (initState Nat Nat) [Step.pull, Step.error 3, Step.stop]).term =
      some TermKind.normal ∧
    (runSteps (initState Nat Nat) [Step.pull, Step.error 3, Step.stop]).uncaught
      = [3] ∧
    ¬ (runSteps (initState Nat Nat) [Step.pull, Step.error 3, Step.stop]).term =
      some (TermKind.threw 3) := by
  exact ⟨rfl, rfl, by decide⟩

/-- Claim C1 (amended): for every invocation whose first terminal queue
call is `error e`, all events produced before the failure are delivered
first, and exactly one failure surfaces, in one of two ways: thrown from
the pull operation (when the error was buffered), or escaping on a
separate tick while the iteration completes normally (when the consumer
was blocked waiting at the moment of the call). -/
theorem C1_amended_single_failure_after_events {T E : Type}
    (s : List (Step T E)) (e : E) (h : tkOf s = some (Sig.err e)) :
    (drain (runSteps (initState T E) s)).out = preOf s ∧
    (((drain (runSteps (initState T E) s)).term = some (TermKind.threw e) ∧
        (drain (runSteps (initState T E) s)).uncaught = []) ∨
      ((drain (runSteps (initState T E) s)).term = some TermKind.normal ∧
        (drain (runSteps (initState T E) s)).uncaught = [e])) :=
  ⟨drained_out s, (drained_sig s (Sig.err e) h).1⟩

/-- Witness for C1 (amended) at a concrete buffered-error run. -/
theorem C1_witness :
    tkOf ([Step.push 1, Step.error 9, Step.stop] : List (Step Nat Nat)) =
      some (Sig.err 9) ∧
    (drain (runSteps (initState Nat Nat)
        [Step.push 1, Step.error 9, Step.stop])).out = [1] :=
  ⟨rfl, (C1_amended_single_failure_after_events
    [Step.push 1, Step.error 9, Step.stop] 9 (by rfl)).1.trans (by rfl)⟩

/-- Claim C2 (counterexample): the claim asserts that after `error(e)` and
`end()` in either order the consumer observes exactly one thrown error
equal to `e`. On the code, with the consumer blocked waiting at
`error(5)`, the iteration completes normally and `5` escapes out of band;
and with `end()` called before `error(5)`, the buffered `DONE` sentinel
is dequeued first, the iteration completes normally, and `5` is never
observed at all. -/
theorem C2_counterexample :
    ((runSteps (initState Nat Nat)
        [Step.push 7, Step.pull, Step.pull, Step.error 5, Step.stop]).term =
          some TermKind.normal ∧
      (runSteps (initState Nat Nat)
        [Step.push 7, Step.pull, Step.pull, Step.error 5, Step.stop]).out = [7] ∧
      (runSteps (initState Nat Nat)
        [Step.push 7, Step.pull, Step.pull, Step.error 5, Step.stop]).uncaught
          = [5]) ∧
    ((drain (runSteps (initState Nat Nat)
        [Step.push 7, Step.stop, Step.error 5])).term = some TermKind.normal ∧
      (drain (runSteps (initState Nat Nat)
        [Step.push 7, Step.stop, Step.error 5])).out = [7] ∧
      (drain (runSteps (initState Nat Nat)
        [Step.push 7, Step.stop, Step.error 5])).uncaught = []) :=
  ⟨⟨rfl, rfl, rfl⟩, ⟨rfl, rfl, rfl⟩⟩

/-- Claim C2 (amended): items buffered before the error are always
delivered first, in order, and items pushed after the first terminal call
are never delivered. For `error(e)` then `end()` with no consumer blocked
at error time, exactly one error equal to `e` is then thrown from the
pull operation; with a consumer blocked at error time the iteration
instead completes normally and `e` escapes on a separate tick; for
`end()` then `error(e)`, the iteration completes normally and `e` is
never observed. -/
theorem C2_amended_error_end_ordering {T E : Type} (P Q : List T) (e : E) :
    ((drain (runSteps (initState T E)
        (P.map Step.push ++ [Step.error e, Step.stop] ++ Q.map Step.push))).out
          = P ∧
      (drain (runSteps (initState T E)
        (P.map Step.push ++ [Step.error e, Step.stop] ++ Q.map Step.push))).term
          = some (TermKind.threw e) ∧
      (drain (runSteps (initState T E)
        (P.map Step.push ++ [Step.error e, Step.stop] ++
          Q.map Step.push))).uncaught = []) ∧
    ((drain (runSteps (initState T E)
        (P.map Step.push ++ [Step.stop, Step.error e] ++ Q.map Step.push))).out
          = P ∧
      (drain (runSteps (initState T E)
        (P.map Step.push ++ [Step.stop, Step.error e] ++ Q.map Step.push))).term
          = some TermKind.normal ∧
      (drain (runSteps (initState T E)
        (P.map Step.push ++ [Step.stop, Step.error e] ++
          Q.map Step.push))).uncaught = []) ∧
    ((runSteps (drain (runSteps (initState T E) (P.map Step.push)))
        [Step.pull, Step.error e, Step.stop]).out = P ∧
      (runSteps (drain (runSteps (initState T E) (P.map Step.push)))
        [Step.pull, Step.error e, Step.stop]).term = some TermKind.normal ∧
      (runSteps (drain (runSteps (initState T E) (P.map Step.push)))
        [Step.pull, Step.error e, Step.stop]).uncaught = [e]) := by
  refine ⟨⟨?_, ?_, ?_⟩, ⟨?_, ?_, ?_⟩, ⟨?_, ?_, ?_⟩⟩ <;>
    first
      | rw [drained_shape_err P Q e]
      | rw [drained_shape_fin_err P Q e]
      | rw [blocked_error_stop P e]

/-- Claim C4 (confirmed): in both process-termination paths of the bridge
(the `close` handler and the spawn `error` handler), `cleanup()` flushes
the trailing unterminated stdout fragment — one final parse attempt,
pushed when it succeeds — strictly before the terminal queue signal, so
the consumer receives every event, the flushed ones last, before it
observes end-of-sequence or the failure. -/
theorem C4_flush_precedes_terminal_signal {T : Type}
    (parse : List Char → Option T) (buffer : List Char) (P : List T)
    (code : Option Int) (signal : Option String) (ab : Bool)
    (en em : String) (ab2 : Bool) :
    ((drain (runSteps (initState T SdkErr)
        (P.map Step.push ++ sdkClosePathOps parse buffer code signal ab))).out =
          P ++ cleanupEvents parse buffer ∧
      (drain (runSteps (initState T SdkErr)
        (P.map Step.push ++
          sdkClosePathOps parse buffer code signal ab))).consumerDone = true) ∧
    ((drain (runSteps (initState T SdkErr)
        (P.map Step.push ++ sdkSpawnPathOps parse buffer en em ab2))).out =
          P ++ cleanupEvents parse buffer ∧
      (drain (runSteps (initState T SdkErr)
        (P.map Step.push ++
          sdkSpawnPathOps parse buffer en em ab2))).consumerDone = true) := by
  constructor
  · have hre : P.map Step.push ++ sdkClosePathOps parse buffer code signal ab =
        (P ++ cleanupEvents parse buffer).map Step.push ++
          termOps (sdkCloseOutcome code signal ab) := by
      simp [sdkClosePathOps]
    rw [hre]
    have h := drained_pushes_termOps (P ++ cleanupEvents parse buffer)
      (sdkCloseOutcome code signal ab)
    exact ⟨h.1, h.2.1⟩
  · have hre : P.map Step.push ++ sdkSpawnPathOps parse buffer en em ab2 =
        (P ++ cleanupEvents parse buffer).map Step.push ++
          termOps (some (sdkErrorOutcome en em ab2)) := by
      simp [sdkSpawnPathOps]
    rw [hre]
    have h := drained_pushes_termOps (P ++ cleanupEvents parse buffer)
      (some (sdkErrorOutcome en em ab2))
    exact ⟨h.1, h.2.1⟩

/-- Claim C5 (counterexample): the claim asserts that in both bridge
implementations a signal termination without cancellation throws a
failure carrying the signal name. The `query` variant's close handler
binds only the exit code, which Node reports as `null` for a signal
termination: its outcome is a generic error whose message reports
`code null` and contains no signal name (not even the substring `SIG`). -/
theorem C5_counterexample :
    cliCloseOutcome none false =
      some (CliErr.genericError "Codex process exited with code null") ∧
    hasSegment "SIG".toList
      "Codex process exited with code null".toList = false := by
  exact ⟨rfl, by decide⟩

/-- Claim C5 (amended): cancellation plus a termination signal (SIGTERM
or SIGKILL) is classified as user cancellation in both implementations
(`UserAbortError` in the sdk, `AbortError` in the cli variant). A signal
termination without cancellation is an `AgentProcessError` carrying the
signal name in its message in the sdk implementation only; the cli
variant, whose close handler binds only the (null) exit code, throws a
generic error reporting `code null` and carrying no signal name. -/
theorem C5_amended_signal_classification (sig : String) (code : Option Int)
    (hsig : sig = "SIGTERM" ∨ sig = "SIGKILL") :
    sdkCloseOutcome code (some sig) true =
      some (SdkErr.userAbort "Codex was aborted by user") ∧
    sdkCloseOutcome code (some sig) false =
      some (SdkErr.agentProcess
        ("Codex was terminated with signal " ++ sig) code) ∧
    hasSegment sig.toList
      ("Codex was terminated with signal " ++ sig).toList = true ∧
    cliCloseOutcome none true =
      some (CliErr.abortError "Codex process aborted by user") ∧
    cliCloseOutcome none false =
      some (CliErr.genericError "Codex process exited with code null") := by
  refine ⟨?_, ?_, ?_, rfl, rfl⟩
  · rcases hsig with rfl | rfl <;> simp [sdkCloseOutcome]
  · rcases hsig with rfl | rfl <;> simp [sdkCloseOutcome, optSigStr]
  · rw [toList_append]
    exact hasSegment_append_self sig.toList _

/-- Witness for C5 (amended) at signal SIGTERM with a null exit code. -/
theorem C5_witness :
    sdkCloseOutcome none (some "SIGTERM") true =
      some (SdkErr.userAbort "Codex was aborted by user") ∧
    sdkCloseOutcome none (some "SIGTERM") false =
      some (SdkErr.agentProcess
        ("Codex was terminated with signal " ++ "SIGTERM") none) :=
  ⟨(C5_amended_signal_classification "SIGTERM" none (Or.inl rfl)).1,
    (C5_amended_signal_classification "SIGTERM" none (Or.inl rfl)).2.1⟩

/-- Claim C6 (counterexample): the claim asserts that a non-zero exit
always ends in an `AgentProcessError` thrown to the consumer. With the
consumer blocked waiting when the process exits with code 2 (the typical
caught-up consumer), the iteration completes normally and the
`AgentProcessError` carrying code 2 escapes on a separate tick instead of
being thrown from the pull operation. -/
theorem C6_counterexample :
    (runSteps (initState Nat SdkErr)
        (Step.pull :: sdkClosePathOps (fun _ => none) [] (some 2) none false)).term
      = some TermKind.normal ∧
    (runSteps (initState Nat SdkErr)
        (Step.pull ::
          sdkClosePathOps (fun _ => none) [] (some 2) none false)).uncaught =
      [SdkErr.agentProcess ("Codex exited with code " ++ optCodeStr (some 2))
        (some 2)] ∧
    optCodeStr (some 2) = "2" ∧
    ¬ (runSteps (initState Nat SdkErr)
        (Step.pull :: sdkClosePathOps (fun _ => none) [] (some 2) none false)).term
      = some (TermKind.threw (SdkErr.agentProcess
          ("Codex exited with code " ++ optCodeStr (some 2)) (some 2))) := by
  refine ⟨rfl, rfl, rfl, by decide⟩

/-- Claim C6 (amended): for a run without cancellation in which the
process exits with a numeric code: code 0 makes the iteration deliver all
events (including a flushed trailing one) and complete normally with no
failure anywhere; a non-zero code delivers all events and then an
`AgentProcessError` carrying exactly that code — thrown from the pull
operation when the consumer is not blocked waiting at the moment the
failure reaches the queue, and escaping on a separate tick (with a
normally completing iteration) when it is. -/
theorem C6_amended_exit_code_paths {T : Type} (parse : List Char → Option T)
    (P : List T) (buffer : List Char) (c : Int) (hc : ¬ c = 0) :
    ((drain (runSteps (initState T SdkErr)
        (P.map Step.push ++ sdkClosePathOps parse buffer (some 0) none false))).out
          = P ++ cleanupEvents parse buffer ∧
      (drain (runSteps (initState T SdkErr)
        (P.map Step.push ++ sdkClosePathOps parse buffer (some 0) none false))).term
          = some TermKind.normal ∧
      (drain (runSteps (initState T SdkErr)
        (P.map Step.push ++
          sdkClosePathOps parse buffer (some 0) none false))).uncaught = []) ∧
    ((drain (runSteps (initState T SdkErr)
        (P.map Step.push ++ sdkClosePathOps parse buffer (some c) none false))).out
          = P ++ cleanupEvents parse buffer ∧
      (drain (runSteps (initState T SdkErr)
        (P.map Step.push ++ sdkClosePathOps parse buffer (some c) none false))).term
          = some (TermKind.threw (SdkErr.agentProcess
              ("Codex exited with code " ++ optCodeStr (some c)) (some c)))) ∧
    ((runSteps (drain (runSteps (initState T SdkErr) (P.map Step.push)))
        (Step.pull :: sdkClosePathOps parse [] (some c) none false)).term
          = some TermKind.normal ∧
      (runSteps (drain (runSteps (initState T SdkErr) (P.map Step.push)))
        (Step.pull :: sdkClosePathOps parse [] (some c) none false)).uncaught
          = [SdkErr.agentProcess
              ("Codex exited with code " ++ optCodeStr (some c)) (some c)] ∧
      (runSteps (drain (runSteps (initState T SdkErr) (P.map Step.push)))
        (Step.pull :: sdkClosePathOps parse [] (some c) none false)).out = P) := by
  have houtcome0 : sdkCloseOutcome (some 0) none false = none := by
    simp [sdkCloseOutcome]
  have houtcomeC : sdkCloseOutcome (some c) none false =
      some (SdkErr.agentProcess
        ("Codex exited with code " ++ optCodeStr (some c)) (some c)) := by
    simp [sdkCloseOutcome, hc]
  refine ⟨?_, ?_, ?_⟩
  · have hre : P.map Step.push ++ sdkClosePathOps parse buffer (some 0) none false
        = (P ++ cleanupEvents parse buffer).map Step.push ++ termOps none := by
      simp [sdkClosePathOps, houtcome0]
    rw [hre]
    have h := drained_pushes_termOps (E := SdkErr)
      (P ++ cleanupEvents parse buffer) none
    exact ⟨h.1, h.2.2.1, h.2.2.2⟩
  · have hre : P.map Step.push ++ sdkClosePathOps parse buffer (some c) none false
        = (P ++ cleanupEvents parse buffer).map Step.push ++
          termOps (some (SdkErr.agentProcess
            ("Codex exited with code " ++ optCodeStr (some c)) (some c))) := by
      simp [sdkClosePathOps, houtcomeC]
    rw [hre]
    have h := drained_pushes_termOps (P ++ cleanupEvents parse buffer)
      (some (SdkErr.agentProcess
        ("Codex exited with code " ++ optCodeStr (some c)) (some c)))
    exact ⟨h.1, h.2.2.1⟩
  · have hops : sdkClosePathOps (T := T) parse [] (some c) none false =
        [Step.error (SdkErr.agentProcess
          ("Codex exited with code " ++ optCodeStr (some c)) (some c)),
          Step.stop] := by
      simp [sdkClosePathOps, houtcomeC, cleanupEvents, isBlank, termOps]
    rw [hops]
    have h := blocked_error_stop P (SdkErr.agentProcess
      ("Codex exited with code " ++ optCodeStr (some c)) (some c))
    rw [show (Step.pull :: [Step.error (SdkErr.agentProcess
        ("Codex exited with code " ++ optCodeStr (some c)) (some c)),
        Step.stop] : List (Step T SdkErr)) =
      [Step.pull, Step.error (SdkErr.agentProcess
        ("Codex exited with code " ++ optCodeStr (some c)) (some c)),
        Step.stop] from rfl]
    rw [h]
    exact ⟨rfl, rfl, rfl⟩

/-- Witness for C6 (amended) at exit code 2 with one event. -/
theorem C6_witness :
    ¬ (2 : Int) = 0 ∧
    (drain (runSteps (initState Nat SdkErr)
        ([5].map Step.push ++
          sdkClosePathOps (fun _ => none) [] (some 2) none false))).out =
      [5] ++ cleanupEvents (fun _ => none) [] :=
  ⟨by decide,
    ((C6_amended_exit_code_paths (fun _ => none) [5] [] 2 (by decide)).2.1).1⟩
